import Mathlib

/-!
Shallow embedding of the Kaitai Struct Rust runtime stream reader
(`src/lib.rs`): the `KStream` / `BytesReader` byte-and-bit reader, the pure
byte transforms, and the `SharedType` back-reference cell.

Machine integers are modelled as `Nat` (u64/u8/usize) with explicit `% 2 ^ 64`
(or `% 256`) at the operations where Rust's wrapping value semantics matter,
and as `Int` for the `i64` fields (`bits_left`, `bits_needed`).  Fallible
operations return an `Except KError` result paired with the post-call state:
the Rust methods mutate state through a `RefCell`, so mutations performed
before an early `?` return survive the error, and the model keeps them.
-/

/-- `Needed` from the source: payload of `KError::Incomplete`. -/
inductive Needed where
  | Size : Nat → Needed
  | Unknown : Needed
deriving DecidableEq, Repr

/-- `KError` from the source (payload-free variants carry nothing we need;
string payloads are dropped since no claim inspects them). -/
inductive KError where
  | Incomplete : Needed → KError
  | EmptyIterator : KError
  | Encoding : KError
  | MissingInstanceValue : KError
  | MissingRoot : KError
  | MissingParent : KError
  | ReadBitsTooLarge : Nat → KError
  | UnexpectedContents : KError
  | ValidationNotEqual : KError
  | UnknownVariant : Int → KError
  | EncounteredEOF : KError
  | IoError : KError
  | CastError : KError
  | UndecidedEndiannessError : KError
deriving DecidableEq, Repr

/-- `ReaderState` from the source: `pos: usize`, `bits: u64`,
`bits_left: i64`. -/
structure ReaderState where
  pos : Nat
  bits : Nat
  bits_left : Int
deriving DecidableEq, Repr

/-- The fresh reader state (`ReaderState::default()`): all fields zero. -/
def ReaderState.fresh : ReaderState := ⟨0, 0, 0⟩

/-- A byte source is well-formed when every entry fits in a `u8`.  In the
source this holds by the type `Vec<u8>`; the model carries it as a
hypothesis. -/
def ByteSrc (src : List Nat) : Prop := ∀ b ∈ src, b < 256

instance (src : List Nat) : Decidable (ByteSrc src) := by
  unfold ByteSrc; infer_instance

/-- `BytesReader::read_bytes` specialised to the in-memory source (a
`Cursor` over `Vec<u8>`, for which `Read::read` returns exactly `len` bytes
whenever `len + pos <= size`): fail `Incomplete(Size(len + pos - size))`
leaving the state untouched when the request overruns, otherwise return the
`len` bytes at `pos` and advance `pos` by `len`. -/
def read_bytes (src : List Nat) (s : ReaderState) (len : Nat) :
    Except KError (List Nat) × ReaderState :=
  if len + s.pos > src.length then
    (.error (.Incomplete (.Size (len + s.pos - src.length))), s)
  else
    (.ok ((src.drop s.pos).take len), { s with pos := s.pos + len })

/-- `KStream::seek`: `Incomplete(Size(position - pos))` when
`position > size`, else set `pos := position`.  The bit buffer is not
touched on either path. -/
def seek (src : List Nat) (s : ReaderState) (position : Nat) :
    Except KError Unit × ReaderState :=
  if position > src.length then
    (.error (.Incomplete (.Size (position - s.pos))), s)
  else
    (.ok (), { s with pos := position })

/-- `KStream::align_to_byte`: zero `bits` and `bits_left`. -/
def align_to_byte (s : ReaderState) : Except KError Unit × ReaderState :=
  (.ok (), { s with bits := 0, bits_left := 0 })

/-- `bytes_needed = ((bits_needed - 1) / 8) + 1` from the bit readers, with
the `as usize` cast; only evaluated on `bits_needed > 0`, where Rust's
truncating `i64` division agrees with Lean's integer division. -/
def bytes_needed_for (bits_left : Int) (n : Nat) : Nat :=
  (((n : Int) - bits_left - 1) / 8 + 1).toNat

/-- `KStream::read_bits_int_be`.  Mutation order mirrors the source:
`bits_left` is updated to `-bits_needed & 7` (= `emod 8`) before the byte
read, so a failing read leaves the new `bits_left` behind; `bits` receives
the freshly read bytes and is masked down to `bits_left` bits at the end.
Shift amounts are `Int.toNat`-clamped; every shift reached from a state with
`0 ≤ bits_left` stays below 64 exactly as in the source. -/
def read_bits_int_be (src : List Nat) (s : ReaderState) (n : Nat) :
    Except KError Nat × ReaderState :=
  if n > 64 then (.error (.ReadBitsTooLarge n), s)
  else
    let bitsNeeded : Int := (n : Int) - s.bits_left
    let bl : Int := -bitsNeeded % 8
    let s1 : ReaderState := { s with bits_left := bl }
    if 0 < bitsNeeded then
      match read_bytes src s1 (bytes_needed_for s.bits_left n) with
      | (.error e, s2) => (.error e, s2)
      | (.ok buf, s2) =>
        let raw : Nat := buf.foldl (fun acc b => ((acc <<< 8) ||| b) % 2 ^ 64) 0
        let res1 : Nat := raw >>> bl.toNat
        let res2 : Nat :=
          if bitsNeeded < 64 then res1 ||| (s2.bits <<< bitsNeeded.toNat) % 2 ^ 64
          else res1
        (.ok res2, { s2 with bits := raw % 2 ^ bl.toNat })
    else
      let res : Nat := s.bits >>> (-bitsNeeded).toNat
      (.ok res, { s1 with bits := s1.bits % 2 ^ bl.toNat })

/-- The little-endian byte-assembly loop of `read_bits_int_le`:
`res |= buf[i] << (i * 8)`. -/
def lePackAux : List Nat → Nat → Nat → Nat
  | [], _, res => res
  | b :: bs, i, res => lePackAux bs (i + 1) (res ||| (b <<< (8 * i)))

def lePack (bs : List Nat) : Nat := lePackAux bs 0 0

/-- `KStream::read_bits_int_le`.  Unlike the big-endian reader, no state is
mutated before the byte read, so a failing read leaves the state intact.
`new_bits` keeps the unconsumed high bits (guarded by `bits_needed < 64`
before the shift), the result is the packed bytes shifted above the old
residual (a wrapping u64 shift) or-ed with it, and the low `n` bits are
masked off when `n < 64`. -/
def read_bits_int_le (src : List Nat) (s : ReaderState) (n : Nat) :
    Except KError Nat × ReaderState :=
  if n > 64 then (.error (.ReadBitsTooLarge n), s)
  else
    let bitsNeeded : Int := (n : Int) - s.bits_left
    if 0 < bitsNeeded then
      match read_bytes src s (bytes_needed_for s.bits_left n) with
      | (.error e, s1) => (.error e, s1)
      | (.ok buf, s1) =>
        let raw : Nat := lePack buf
        let newBits : Nat := if bitsNeeded < 64 then raw >>> bitsNeeded.toNat else 0
        let res1 : Nat := ((raw <<< s.bits_left.toNat) % 2 ^ 64) ||| s.bits
        let res2 : Nat := if n < 64 then res1 % 2 ^ n else res1
        (.ok res2, { s1 with bits := newBits, bits_left := -bitsNeeded % 8 })
    else
      let res1 : Nat := s.bits
      let res2 : Nat := if n < 64 then res1 % 2 ^ n else res1
      (.ok res2,
        { s with bits := s.bits >>> n, bits_left := -bitsNeeded % 8 })

/-- The scan loop of `KStream::read_bytes_term`: while `pos < size`, read one
byte; push it unless it is the terminator, in which case undo the position
advance and stop.  Fuel is the number of bytes left, which the loop consumes
one per iteration. -/
def read_bytes_term_loop (src : List Nat) (term : Nat) :
    Nat → ReaderState → List Nat → List Nat × ReaderState
  | 0, s, acc => (acc, s)
  | fuel + 1, s, acc =>
    if h : s.pos < src.length then
      let b := src.get ⟨s.pos, h⟩
      if b ≠ term then
        read_bytes_term_loop src term fuel { s with pos := s.pos + 1 } (acc ++ [b])
      else
        (acc, s)
    else
      (acc, s)

/-- `KStream::read_bytes_term`: scan to the terminator or EOF, then apply the
`eos_error`, `consume` and `include` flags exactly as the source does. -/
def read_bytes_term (src : List Nat) (s : ReaderState) (term : Nat)
    (include_ consume eos_error : Bool) :
    Except KError (List Nat) × ReaderState :=
  let r := read_bytes_term_loop src term (src.length - s.pos) s []
  let s1 := r.2
  if s1.pos = src.length then
    if eos_error then (.error .EncounteredEOF, s1) else (.ok r.1, s1)
  else
    let s2 := if consume then { s1 with pos := s1.pos + 1 } else s1
    (.ok (if include_ then r.1 ++ [term] else r.1), s2)

/-- The loop of `KStream::bytes_terminate`, which evaluates
`bytes[new_len] != term` before `new_len < bytes.len()`: when `new_len`
reaches the length (terminator absent) the index is out of range and the
program panics, modelled as `none`. -/
def bytes_terminate_loop (bytes : List Nat) (term : Nat) :
    Nat → Nat → Option Nat
  | 0, _ => none
  | fuel + 1, i =>
    if h : i < bytes.length then
      if bytes.get ⟨i, h⟩ = term then some i
      else bytes_terminate_loop bytes term fuel (i + 1)
    else none

/-- `KStream::bytes_terminate`: `none` models the out-of-range index panic on
an unterminated input. -/
def bytes_terminate (bytes : List Nat) (term : Nat) (include_term : Bool) :
    Option (List Nat) :=
  match bytes_terminate_loop bytes term (bytes.length + 1) 0 with
  | none => none
  | some newLen =>
    let newLen := if include_term ∧ newLen < bytes.length then newLen + 1 else newLen
    some (bytes.take newLen)

/-- One byte of `KStream::process_rotate_left`:
`(*i << amount) | (*i >> (8 - amount))` on `u8`.  A shift by eight or more is
an overflowing shift on `u8` (a panic with debug assertions, a masked shift
amount in release builds), modelled as `none`; that happens on the right
shift exactly when `amount = 0`, and on both when `amount ≥ 8`. -/
def rotl_byte (b amount : Nat) : Option Nat :=
  if amount ≥ 8 ∨ 8 - amount ≥ 8 then none
  else some (((b <<< amount) % 256) ||| (b >>> (8 - amount)))

/-- `KStream::process_rotate_left`: map `rotl_byte` over the sequence. -/
def process_rotate_left (bytes : List Nat) (amount : Nat) :
    Option (List Nat) :=
  bytes.mapM (fun b => rotl_byte b amount)

/-- `BytesReader`: the cursor state plus a handle identifying the shared
underlying byte source (`buf: OptRc<RefCell<Box<dyn ReadSeek>>>`); the
handle number stands for the `Rc` allocation, so equal handles mean the same
shared source. -/
structure BytesReader where
  state : ReaderState
  buf : Nat
deriving DecidableEq, Repr

/-- `<BytesReader as KStream>::clone`, which is `Clone::clone(self)` with the
derived `Clone`: the `RefCell<ReaderState>` is cloned by value (a snapshot of
the current cursor state) and the `OptRc` clone bumps the refcount of the
same `Rc`, so the source is shared. -/
def BytesReader.cloneReader (r : BytesReader) : BytesReader :=
  { state := r.state, buf := r.buf }

/-- A heap of strong counts for `Rc` allocations, indexed by allocation id:
`strong t` is the number of owning handles to allocation `t` alive at the
moment of the call. -/
structure RcHeap where
  strong : Nat → Nat

/-- `SharedType`: a cell holding a `Weak` reference, recorded by the id of
its target allocation. -/
structure SharedType where
  target : Nat

/-- Modelled from the spec: Rust's `Weak::upgrade` (standard-library
behaviour, not part of this repository's sources) returns an owning handle
iff at least one strong reference to the target is still alive at the moment
of the call. -/
def WeakRef.upgrade (h : RcHeap) (target : Nat) : Option Nat :=
  if 0 < h.strong target then some target else none

/-- `SharedType::get`: upgrade the weak reference; `Some` becomes `Ok` and
`None` becomes `Err(MissingParent)`. -/
def SharedType.get (h : RcHeap) (st : SharedType) : Except KError Nat :=
  match WeakRef.upgrade h st.target with
  | some rc => .ok rc
  | none => .error .MissingParent

/-! ### Specification-side helper definitions -/

/-- Big-endian numeric value of a byte list (most significant byte first);
the clean counterpart of the `res = res << 8 | b` assembly loop in
`read_bits_int_be`. -/
def beVal (bs : List Nat) : Nat := bs.foldl (fun acc b => acc * 256 + b) 0

/-- Little-endian numeric value of a byte list (least significant byte
first); the clean counterpart of `lePack`. -/
def leVal (bs : List Nat) : Nat := bs.foldr (fun b acc => b + 256 * acc) 0

/-- Number of whole bytes a bit read of `n` bits consumes from a residual of
`L` bits: zero when the residual suffices, else the ceiling of
`(n - L) / 8`; the `Nat`-level counterpart of `bytes_needed_for`. -/
def bytes_for (L n : Nat) : Nat := if n ≤ L then 0 else (n - L - 1) / 8 + 1

/-- States whose bit buffer is well-formed: a nonnegative residual of at
most seven bits, with `bits` masked down to `bits_left` significant bits.
Fresh readers satisfy it and every successfully completed primitive
preserves it. -/
def ValidBits (s : ReaderState) : Prop :=
  0 ≤ s.bits_left ∧ s.bits_left ≤ 7 ∧ s.bits < 2 ^ s.bits_left.toNat

instance (s : ReaderState) : Decidable (ValidBits s) := by
  unfold ValidBits; infer_instance

/-- Reader states reachable from a fresh reader by successfully completed
primitives (`seek`, `align_to_byte`, `read_bytes`, `read_bits_int_be`,
`read_bits_int_le`). -/
inductive Reached (src : List Nat) : ReaderState → Prop where
  | fresh : Reached src ReaderState.fresh
  | seek_ok {s s2 : ReaderState} {p : Nat} {u : Unit} :
      Reached src s → seek src s p = (.ok u, s2) → Reached src s2
  | align_ok {s s2 : ReaderState} {u : Unit} :
      Reached src s → align_to_byte s = (.ok u, s2) → Reached src s2
  | read_bytes_ok {s s2 : ReaderState} {n : Nat} {bs : List Nat} :
      Reached src s → read_bytes src s n = (.ok bs, s2) → Reached src s2
  | read_bits_be_ok {s s2 : ReaderState} {n v : Nat} :
      Reached src s → read_bits_int_be src s n = (.ok v, s2) → Reached src s2
  | read_bits_le_ok {s s2 : ReaderState} {n v : Nat} :
      Reached src s → read_bits_int_le src s n = (.ok v, s2) → Reached src s2

/-! ## Helper lemmas -/

theorem takeWhile_length_lt_of_mem {term : Nat} :
    ∀ {l : List Nat}, term ∈ l →
      (l.takeWhile (fun b => b != term)).length < l.length := by
  intro l hl
  induction l with
  | nil => cases hl
  | cons b t ih =>
    by_cases hb : b = term
    · subst hb
      simp [List.takeWhile_cons]
    · have ht : term ∈ t := by
        rcases List.mem_cons.mp hl with rfl | hm
        · exact absurd rfl hb
        · exact hm
      have := ih ht
      simp only [List.takeWhile_cons, bne_iff_ne, ne_eq, hb, not_false_iff,
        if_pos, List.length_cons]
      omega

theorem takeWhile_eq_self_of_not_mem {term : Nat} {l : List Nat}
    (h : term ∉ l) : l.takeWhile (fun b => b != term) = l := by
  refine List.takeWhile_eq_self_iff.mpr ?_
  intro x hx
  simp only [bne_iff_ne, ne_eq]
  rintro rfl
  exact h hx

/-! ## C1: clone -/

/-- C1 counterexample: cloning a reader whose cursor sits at `pos = 5` with a
fractional bit buffer yields a reader whose state is that same snapshot, not
the default state `pos = 0, bits = 0, bits_left = 0` the claim requires. -/
theorem c1_clone_counterexample :
    (BytesReader.cloneReader ⟨⟨5, 3, 2⟩, 7⟩).state ≠ ReaderState.fresh := by
  decide

/-- C1 (amended): `clone()` returns a new reader that shares the same
underlying byte source and whose cursor state is a copy of the original's
current state at the moment of the call (subsequent mutations of either
reader are independent); the state is not reset to the defaults. -/
theorem c1_clone_shares_source_copies_state (r : BytesReader) :
    (BytesReader.cloneReader r).buf = r.buf ∧
      (BytesReader.cloneReader r).state = r.state :=
  ⟨rfl, rfl⟩

/-! ## C2: bytes_terminate -/

/-- C2: on an input that contains no occurrence of the terminator,
`bytes_terminate` indexes `bytes[new_len]` with `new_len = bytes.len()`
before checking the bound, an out-of-range access (modelled as `none`)
instead of returning the input unchanged. -/
theorem c2_bytes_terminate_unterminated_out_of_bounds :
    bytes_terminate [1, 2] 3 false = none := by decide

/-! ## C5: read_bytes -/

/-- C5: when `pos + n ≤ size`, `read_bytes n` succeeds, returns exactly the
`n` source bytes at offsets `pos .. pos + n`, and advances `pos` by `n`;
when `pos + n > size` it fails with `Incomplete(Size(n + pos - size))` and
leaves the state (in particular `pos`) unchanged. -/
theorem c5_read_bytes (src : List Nat) (s : ReaderState) (n : Nat) :
    (s.pos + n ≤ src.length →
      ∃ bs, read_bytes src s n = (.ok bs, { s with pos := s.pos + n }) ∧
        bs.length = n ∧ ∀ i < n, bs.getD i 0 = src.getD (s.pos + i) 0) ∧
    (src.length < s.pos + n →
      read_bytes src s n =
        (.error (.Incomplete (.Size (n + s.pos - src.length))), s)) := by
  constructor
  · intro h
    refine ⟨(src.drop s.pos).take n, ?_, ?_, ?_⟩
    · rw [read_bytes, if_neg (by omega)]
    · rw [List.length_take, List.length_drop]
      omega
    · intro i hi
      simp [List.getD_eq_getElem?_getD, List.getElem?_take, List.getElem?_drop, hi]
  · intro h
    rw [read_bytes, if_pos (by omega)]

/-- C5 witness. -/
theorem c5_read_bytes_witness :
    ((1 : Nat) + 2 ≤ ([9, 8, 7] : List Nat).length ∧
      ∃ bs, read_bytes [9, 8, 7] ⟨1, 0, 0⟩ 2 = (.ok bs, ⟨3, 0, 0⟩) ∧
        bs.length = 2 ∧ ∀ i < 2, bs.getD i 0 = ([9, 8, 7] : List Nat).getD (1 + i) 0) ∧
    (([9, 8, 7] : List Nat).length < 0 + 4 →
      read_bytes [9, 8, 7] ⟨0, 0, 0⟩ 4 =
        (.error (.Incomplete (.Size (4 + 0 - 3))), ⟨0, 0, 0⟩)) :=
  ⟨⟨by decide, (c5_read_bytes [9, 8, 7] ⟨1, 0, 0⟩ 2).1 (by decide)⟩,
    (c5_read_bytes [9, 8, 7] ⟨0, 0, 0⟩ 4).2⟩

/-! ## C6: seek -/

/-- C6: `seek p` with `p ≤ size` succeeds and sets `pos := p`; with
`p > size` it fails with `Incomplete(Size(p - pos))` and leaves `pos`
unchanged; on both paths the bit-buffer fields `bits` and `bits_left` are
untouched. -/
theorem c6_seek (src : List Nat) (s : ReaderState) (p : Nat)
    (_hpos : s.pos ≤ src.length) :
    (p ≤ src.length → seek src s p = (.ok (), { s with pos := p })) ∧
    (src.length < p →
      seek src s p = (.error (.Incomplete (.Size (p - s.pos))), s)) ∧
    (seek src s p).2.bits = s.bits ∧ (seek src s p).2.bits_left = s.bits_left := by
  refine ⟨fun h => ?_, fun h => ?_, ?_, ?_⟩
  · rw [seek, if_neg (by omega)]
  · rw [seek, if_pos (by omega)]
  · rw [seek]; split <;> rfl
  · rw [seek]; split <;> rfl

/-- C6 witness. -/
theorem c6_seek_witness :
    ((2 ≤ ([1, 2] : List Nat).length → seek [1, 2] ⟨1, 5, 3⟩ 2 = (.ok (), ⟨2, 5, 3⟩)) ∧
      (([1, 2] : List Nat).length < 2 →
        seek [1, 2] ⟨1, 5, 3⟩ 2 = (.error (.Incomplete (.Size (2 - 1))), ⟨1, 5, 3⟩)) ∧
      (seek [1, 2] ⟨1, 5, 3⟩ 2).2.bits = 5 ∧
      (seek [1, 2] ⟨1, 5, 3⟩ 2).2.bits_left = 3) :=
  c6_seek [1, 2] ⟨1, 5, 3⟩ 2 (by decide)

/-! ## C8: process_rotate_left -/

/-- C8: `process_rotate_left` with `amount = 0` evaluates `b >> (8 - 0)`, an
overflowing shift on `u8` (a panic under debug assertions), modelled as
`none`; it is not the identity the claim requires. -/
theorem c8_rotate_left_zero_overflows :
    process_rotate_left [1] 0 = none := by decide

/-! ## C9: SharedType::get -/

/-- C9: `SharedType::get` upgrades the weak reference and returns an owning
handle exactly when at least one strong reference to the target is alive at
the moment of the call; otherwise it fails with `MissingParent`. -/
theorem c9_shared_type_get (h : RcHeap) (st : SharedType) :
    (0 < h.strong st.target → SharedType.get h st = .ok st.target) ∧
    (h.strong st.target = 0 → SharedType.get h st = .error .MissingParent) := by
  constructor
  · intro hpos
    simp [SharedType.get, WeakRef.upgrade, hpos]
  · intro hzero
    simp [SharedType.get, WeakRef.upgrade, hzero]

/-- C9 witness: a live target (strong count one) upgrades; the same cell
against a heap where the owner was dropped fails with `MissingParent`. -/
theorem c9_shared_type_get_witness :
    SharedType.get ⟨fun _ => 1⟩ ⟨0⟩ = .ok 0 ∧
      SharedType.get ⟨fun _ => 0⟩ ⟨0⟩ = .error .MissingParent :=
  ⟨(c9_shared_type_get ⟨fun _ => 1⟩ ⟨0⟩).1 (by decide),
    (c9_shared_type_get ⟨fun _ => 0⟩ ⟨0⟩).2 rfl⟩

/-! ## C10: read_bits_int_le atomicity on Incomplete -/

/-- C10: with `n ≤ 64` and too few remaining bytes to service the request,
`read_bits_int_le` fails with `Incomplete` and returns the reader state
exactly as it was: no field (`pos`, `bits`, `bits_left`) is mutated before
the failing byte read. -/
theorem c10_read_bits_int_le_atomic (src : List Nat) (s : ReaderState) (n : Nat)
    (hn : n ≤ 64) (hneed : s.bits_left < (n : Int))
    (hshort : src.length < s.pos + bytes_needed_for s.bits_left n) :
    read_bits_int_le src s n =
      (.error (.Incomplete (.Size (bytes_needed_for s.bits_left n + s.pos - src.length))),
        s) := by
  rw [read_bits_int_le, if_neg (by omega)]
  have hpos : (0 : Int) < (n : Int) - s.bits_left := by omega
  rw [if_pos hpos, read_bytes, if_pos (by omega)]

/-- C10 witness. -/
theorem c10_read_bits_int_le_atomic_witness :
    read_bits_int_le [] ⟨0, 0, 0⟩ 1 =
      (.error (.Incomplete (.Size (bytes_needed_for 0 1 + 0 - 0))), ⟨0, 0, 0⟩) :=
  c10_read_bits_int_le_atomic [] ⟨0, 0, 0⟩ 1 (by decide) (by decide)
    (by decide)

/-! ## C3: read_bytes_term -/

theorem read_bytes_term_loop_spec (src : List Nat) (term : Nat) :
    ∀ (fuel : Nat) (s : ReaderState) (acc : List Nat),
      s.pos ≤ src.length → src.length - s.pos ≤ fuel →
      read_bytes_term_loop src term fuel s acc =
        (acc ++ (src.drop s.pos).takeWhile (fun b => b != term),
          { s with
              pos := s.pos + ((src.drop s.pos).takeWhile (fun b => b != term)).length }) := by
  intro fuel
  induction fuel with
  | zero =>
    intro s acc hpos hfuel
    have hdrop : src.drop s.pos = [] := List.drop_eq_nil_of_le (by omega)
    simp [read_bytes_term_loop, hdrop]
  | succ fuel ih =>
    intro s acc hpos hfuel
    rw [read_bytes_term_loop]
    by_cases h : s.pos < src.length
    · rw [dif_pos h]
      have hdrop : src.drop s.pos = src[s.pos] :: src.drop (s.pos + 1) :=
        List.drop_eq_getElem_cons h
      rw [hdrop, List.takeWhile_cons]
      by_cases hb : src[s.pos] = term
      · rw [if_neg (show ¬src.get ⟨s.pos, h⟩ ≠ term by simpa using hb)]
        simp [hb]
      · rw [if_pos (show src.get ⟨s.pos, h⟩ ≠ term by simpa using hb)]
        rw [ih { s with pos := s.pos + 1 } (acc ++ [src.get ⟨s.pos, h⟩])
          (by simpa using h) (by simp only []; omega)]
        have hbne : (src[s.pos] != term) = true := by simpa using hb
        rw [hbne]
        simp only [if_pos, List.get_eq_getElem, List.append_assoc,
          List.singleton_append, List.length_cons]
        refine Prod.ext rfl ?_
        simp only [ReaderState.mk.injEq, and_true, true_and]
        omega
    · rw [dif_neg h]
      have hdrop : src.drop s.pos = [] := List.drop_eq_nil_of_le (by omega)
      simp [hdrop]

/-- C3: `read_bytes_term` scans forward from `pos`: if the terminator occurs
before end of stream it returns the bytes strictly before it, appending the
terminator iff `include` is set, and leaves `pos` just past the terminator
iff `consume` is set and exactly on it otherwise; if end of stream is
reached first it fails with `EncounteredEOF` when `eos_error` is set and
otherwise returns everything collected with `pos = size`. -/
theorem c3_read_bytes_term (src : List Nat) (s : ReaderState) (term : Nat)
    (include_ consume eos_error : Bool) (hpos : s.pos ≤ src.length) :
    (term ∈ src.drop s.pos →
      read_bytes_term src s term include_ consume eos_error =
        (.ok ((src.drop s.pos).takeWhile (fun b => b != term) ++
            (if include_ then [term] else [])),
          { s with
              pos := s.pos + ((src.drop s.pos).takeWhile (fun b => b != term)).length +
                (if consume then 1 else 0) })) ∧
    (term ∉ src.drop s.pos →
      read_bytes_term src s term include_ consume eos_error =
        (if eos_error then (.error .EncounteredEOF, { s with pos := src.length })
          else (.ok (src.drop s.pos), { s with pos := src.length }))) := by
  have hloop := read_bytes_term_loop_spec src term (src.length - s.pos) s [] hpos le_rfl
  have hlen : (src.drop s.pos).length = src.length - s.pos := List.length_drop s.pos src
  constructor
  · intro hmem
    have hlt := takeWhile_length_lt_of_mem hmem
    rw [read_bytes_term, hloop]
    simp only [List.nil_append]
    rw [if_neg (by omega)]
    cases include_ <;> cases consume <;>
      simp [Nat.add_assoc]
  · intro hnm
    have heq := takeWhile_eq_self_of_not_mem hnm
    rw [read_bytes_term, hloop, heq]
    simp only [List.nil_append]
    rw [if_pos (by omega)]
    cases eos_error <;> simp <;> omega

/-- C3 witness. -/
theorem c3_read_bytes_term_witness :
    read_bytes_term [1, 2, 3] ⟨0, 0, 0⟩ 2 true true true = (.ok [1, 2], ⟨2, 0, 0⟩) ∧
      read_bytes_term [1, 2, 3] ⟨0, 0, 0⟩ 7 false false true =
        (.error .EncounteredEOF, ⟨3, 0, 0⟩) := by
  have h1 := (c3_read_bytes_term [1, 2, 3] ⟨0, 0, 0⟩ 2 true true true (by decide)).1
    (by decide)
  have h2 := (c3_read_bytes_term [1, 2, 3] ⟨0, 0, 0⟩ 7 false false true (by decide)).2
    (by decide)
  exact ⟨by simpa using h1, by simpa using h2⟩

/-! ## Bit-arithmetic helper lemmas -/

theorem lor_two_pow_mul_add {n : Nat} (a b : Nat) (hb : b < 2 ^ n) :
    2 ^ n * a ||| b = 2 ^ n * a + b := by
  have hsl : 2 ^ n * a = a <<< n := by rw [Nat.shiftLeft_eq, Nat.mul_comm]
  apply Nat.eq_of_testBit_eq
  intro i
  rw [Nat.testBit_lor, hsl, Nat.testBit_shiftLeft]
  rcases Nat.lt_or_ge i n with hi | hi
  · have h1 : decide (i ≥ n) = false := by simp; omega
    rw [h1, Bool.false_and, Bool.false_or]
    rw [Nat.testBit_to_div_mod, Nat.testBit_to_div_mod]
    have hsplit : 2 ^ n = 2 ^ i * 2 ^ (n - i) := by
      rw [← pow_add]
      congr 1
      omega
    have hdiv : (a <<< n + b) / 2 ^ i = 2 ^ (n - i) * a + b / 2 ^ i := by
      rw [← hsl, hsplit, Nat.mul_assoc,
        Nat.mul_add_div (Nat.pos_pow_of_pos i (by norm_num))]
    rw [hdiv]
    have heven : 2 ^ (n - i) * a = 2 * (2 ^ (n - i - 1) * a) := by
      rw [← Nat.mul_assoc, ← pow_succ']
      congr 2
      omega
    have hmod : (2 ^ (n - i) * a + b / 2 ^ i) % 2 = b / 2 ^ i % 2 := by
      rw [heven]
      omega
    rw [hmod]
  · have h1 : decide (i ≥ n) = true := by simp; omega
    rw [h1, Bool.true_and]
    have h3 : Nat.testBit b i = false :=
      Nat.testBit_lt_two_pow (lt_of_lt_of_le hb (Nat.pow_le_pow_right (by norm_num) hi))
    rw [h3, Bool.or_false]
    rw [Nat.testBit_to_div_mod, Nat.testBit_to_div_mod]
    have hdiv : (a <<< n + b) / 2 ^ i = a / 2 ^ (i - n) := by
      have h4 : (a <<< n + b) / 2 ^ n = a := by
        rw [← hsl, Nat.mul_add_div (Nat.pos_pow_of_pos n (by norm_num)),
          Nat.div_eq_of_lt hb, Nat.add_zero]
      have h5 : 2 ^ i = 2 ^ n * 2 ^ (i - n) := by
        rw [← pow_add]
        congr 1
        omega
      rw [h5, ← Nat.div_div_eq_div_mul, h4]
    rw [hdiv]

theorem beVal_foldl (bs : List Nat) :
    ∀ a : Nat, bs.foldl (fun acc b => acc * 256 + b) a =
      a * 2 ^ (8 * bs.length) + beVal bs := by
  induction bs with
  | nil => intro a; simp [beVal]
  | cons b t ih =>
    intro a
    have hcons : beVal (b :: t) = b * 2 ^ (8 * t.length) + beVal t := by
      rw [beVal, List.foldl_cons, ih]
      simp
    rw [List.foldl_cons, ih, hcons]
    have hpow : 2 ^ (8 * (b :: t).length) = 2 ^ (8 * t.length) * 256 := by
      rw [List.length_cons, Nat.mul_add, pow_add]
      norm_num
    rw [hpow]
    ring

theorem beVal_cons (b : Nat) (t : List Nat) :
    beVal (b :: t) = b * 2 ^ (8 * t.length) + beVal t := by
  rw [beVal, List.foldl_cons, beVal_foldl]
  simp

theorem beVal_lt (bs : List Nat) (h : ∀ b ∈ bs, b < 256) :
    beVal bs < 2 ^ (8 * bs.length) := by
  induction bs with
  | nil => simp [beVal]
  | cons b t ih =>
    rw [beVal_cons]
    have hb : b < 256 := h b (List.mem_cons_self b t)
    have ht := ih (fun x hx => h x (List.mem_cons_of_mem b hx))
    have hpow : 2 ^ (8 * (b :: t).length) = 256 * 2 ^ (8 * t.length) := by
      rw [List.length_cons, Nat.mul_add, pow_add, Nat.mul_comm]
      norm_num
    rw [hpow]
    calc b * 2 ^ (8 * t.length) + beVal t
        < b * 2 ^ (8 * t.length) + 2 ^ (8 * t.length) := by omega
      _ = (b + 1) * 2 ^ (8 * t.length) := by ring
      _ ≤ 256 * 2 ^ (8 * t.length) := by
          exact Nat.mul_le_mul_right _ (by omega)

theorem beVal_append (xs ys : List Nat) :
    beVal (xs ++ ys) = beVal xs * 2 ^ (8 * ys.length) + beVal ys := by
  rw [beVal, List.foldl_append, ← beVal, beVal_foldl]

theorem be_fold_mod_eq_aux (bs : List Nat) :
    ∀ a : Nat, (∀ b ∈ bs, b < 256) → 8 * bs.length ≤ 64 →
      a < 2 ^ (64 - 8 * bs.length) →
      bs.foldl (fun acc b => ((acc <<< 8) ||| b) % 2 ^ 64) a =
        a * 2 ^ (8 * bs.length) + beVal bs := by
  induction bs with
  | nil => intro a _ _ _; simp [beVal]
  | cons b t ih =>
    intro a hbs hlen ha
    have hb : b < 256 := hbs b (List.mem_cons_self b t)
    have hstep : ((a <<< 8) ||| b) % 2 ^ 64 = a * 256 + b := by
      have h1 : a <<< 8 = 2 ^ 8 * a := by rw [Nat.shiftLeft_eq, Nat.mul_comm]
      rw [h1, lor_two_pow_mul_add a b (by norm_num; omega)]
      have hlt : 2 ^ 8 * a + b < 2 ^ 64 := by
        have h2 : a + 1 ≤ 2 ^ (64 - 8 * (b :: t).length) := ha
        have h3 : 2 ^ 8 * (a + 1) ≤ 2 ^ 8 * 2 ^ (64 - 8 * (b :: t).length) :=
          Nat.mul_le_mul_left _ h2
        have h4 : 2 ^ 8 * 2 ^ (64 - 8 * (b :: t).length) ≤ 2 ^ 64 := by
          rw [← pow_add]
          exact Nat.pow_le_pow_right (by norm_num) (by simp only [List.length_cons]; omega)
        omega
      rw [Nat.mod_eq_of_lt hlt]
      ring
    rw [List.foldl_cons, hstep, ih (a * 256 + b)
      (fun x hx => hbs x (List.mem_cons_of_mem b hx))
      (by simp only [List.length_cons] at hlen ⊢; omega)
      (by
        have hmul : (a + 1) * 256 ≤ 2 ^ (64 - 8 * (b :: t).length) * 256 :=
          Nat.mul_le_mul_right _ ha
        have hpow : 2 ^ (64 - 8 * (b :: t).length) * 256 ≤ 2 ^ (64 - 8 * t.length) := by
          have : (256 : Nat) = 2 ^ 8 := by norm_num
          rw [this, ← pow_add]
          exact Nat.pow_le_pow_right (by norm_num)
            (by simp only [List.length_cons] at hlen ⊢; omega)
        omega)]
    have hpow2 : 2 ^ (8 * (b :: t).length) = 2 ^ (8 * t.length) * 256 := by
      rw [List.length_cons, Nat.mul_add, pow_add]
      norm_num
    rw [beVal_cons, hpow2]
    ring

theorem be_fold_mod_eq (bs : List Nat) (hbs : ∀ b ∈ bs, b < 256)
    (hlen : 8 * bs.length ≤ 64) :
    bs.foldl (fun acc b => ((acc <<< 8) ||| b) % 2 ^ 64) 0 = beVal bs := by
  rw [be_fold_mod_eq_aux bs 0 hbs hlen (Nat.pos_pow_of_pos _ (by norm_num))]
  simp

theorem leVal_nil : leVal [] = 0 := rfl

theorem leVal_cons (b : Nat) (t : List Nat) :
    leVal (b :: t) = b + 256 * leVal t := rfl

theorem leVal_lt (bs : List Nat) (h : ∀ b ∈ bs, b < 256) :
    leVal bs < 2 ^ (8 * bs.length) := by
  induction bs with
  | nil => simp [leVal]
  | cons b t ih =>
    rw [leVal_cons]
    have hb : b < 256 := h b (List.mem_cons_self b t)
    have ht := ih (fun x hx => h x (List.mem_cons_of_mem b hx))
    have hpow : 2 ^ (8 * (b :: t).length) = 256 * 2 ^ (8 * t.length) := by
      rw [List.length_cons, Nat.mul_add, pow_add, Nat.mul_comm]
      norm_num
    rw [hpow]
    omega

theorem leVal_append (xs ys : List Nat) :
    leVal (xs ++ ys) = leVal xs + 2 ^ (8 * xs.length) * leVal ys := by
  induction xs with
  | nil => simp [leVal]
  | cons b t ih =>
    rw [List.cons_append, leVal_cons, leVal_cons, ih]
    have hpow : 2 ^ (8 * (b :: t).length) = 256 * 2 ^ (8 * t.length) := by
      rw [List.length_cons, Nat.mul_add, pow_add, Nat.mul_comm]
      norm_num
    rw [hpow]
    ring

theorem lePackAux_eq (bs : List Nat) :
    ∀ (i res : Nat), (∀ b ∈ bs, b < 256) → res < 2 ^ (8 * i) →
      lePackAux bs i res = res + 2 ^ (8 * i) * leVal bs := by
  induction bs with
  | nil => intro i res _ _; simp [lePackAux, leVal]
  | cons b t ih =>
    intro i res hbs hres
    have hb : b < 256 := hbs b (List.mem_cons_self b t)
    have hstep : res ||| (b <<< (8 * i)) = res + 2 ^ (8 * i) * b := by
      have h1 : b <<< (8 * i) = 2 ^ (8 * i) * b := by
        rw [Nat.shiftLeft_eq, Nat.mul_comm]
      rw [h1, Nat.lor_comm, lor_two_pow_mul_add b res hres]
      ring
    rw [lePackAux, hstep, ih (i + 1) (res + 2 ^ (8 * i) * b)
      (fun x hx => hbs x (List.mem_cons_of_mem b hx))
      (by
        have hpow : 2 ^ (8 * (i + 1)) = 2 ^ (8 * i) * 256 := by
          rw [Nat.mul_add, pow_add]
          norm_num
        rw [hpow]
        have h2 : 2 ^ (8 * i) * (b + 1) ≤ 2 ^ (8 * i) * 256 :=
          Nat.mul_le_mul_left _ (by omega)
        have h3 : 2 ^ (8 * i) * (b + 1) = 2 ^ (8 * i) * b + 2 ^ (8 * i) := by ring
        omega)]
    rw [leVal_cons]
    have hpow : 2 ^ (8 * (i + 1)) = 2 ^ (8 * i) * 256 := by
      rw [Nat.mul_add, pow_add]
      norm_num
    rw [hpow]
    ring

theorem lePack_eq (bs : List Nat) (hbs : ∀ b ∈ bs, b < 256) :
    lePack bs = leVal bs := by
  rw [lePack, lePackAux_eq bs 0 0 hbs (by norm_num)]
  simp

/-! ## read_bytes and bytes_for helper lemmas -/

theorem read_bytes_ok_eq (src : List Nat) (s : ReaderState) (len : Nat)
    (h : s.pos + len ≤ src.length) :
    read_bytes src s len =
      (.ok ((src.drop s.pos).take len), { s with pos := s.pos + len }) := by
  rw [read_bytes, if_neg (by omega)]

theorem take_drop_length (src : List Nat) (p len : Nat)
    (h : p + len ≤ src.length) : ((src.drop p).take len).length = len := by
  rw [List.length_take, List.length_drop]
  omega

theorem take_drop_bytes (src : List Nat) (hsrc : ByteSrc src) (p len : Nat) :
    ∀ b ∈ (src.drop p).take len, b < 256 := fun b hb =>
  hsrc b (List.drop_subset p src (List.take_subset len (src.drop p) hb))

theorem bytes_needed_for_eq (L n : Nat) (h : L < n) :
    bytes_needed_for (L : Int) n = bytes_for L n := by
  rw [bytes_needed_for, bytes_for, if_neg (by omega)]
  omega

theorem bytes_for_bounds (L n : Nat) (hL : L ≤ 7) (hn : n ≤ 64) (h : L < n) :
    n ≤ L + 8 * bytes_for L n ∧ L + 8 * bytes_for L n - n ≤ 7 ∧
      bytes_for L n ≤ 8 ∧ 1 ≤ bytes_for L n := by
  rw [bytes_for, if_neg (by omega)]
  omega


/-! ## Single-call characterization of the bit readers

On a well-formed state (`L ≤ 7` residual bits, `bits` masked), a successful
big-endian read of `n` bits returns the top `n` bits of the window formed by
the residual followed by the `k` freshly read bytes in big-endian order, and
keeps the remaining `r` low bits; a little-endian read returns the low `n`
bits of the residual followed by the bytes in little-endian order, and keeps
the remaining high bits. -/

theorem read_bits_int_be_spec (src : List Nat) (s : ReaderState) (n L k r : Nat)
    (hsrc : ByteSrc src) (hn : n ≤ 64)
    (hbl : s.bits_left = (L : Int)) (hL : L ≤ 7)
    (hmask : s.bits < 2 ^ L)
    (hk : k = bytes_for L n) (hr : r = L + 8 * k - n)
    (henough : s.pos + k ≤ src.length) :
    read_bits_int_be src s n =
      (.ok ((s.bits * 2 ^ (8 * k) + beVal ((src.drop s.pos).take k)) / 2 ^ r),
        ⟨s.pos + k,
          (s.bits * 2 ^ (8 * k) + beVal ((src.drop s.pos).take k)) % 2 ^ r,
          ((L : Int) - (n : Int)) % 8⟩) := by
  rw [read_bits_int_be]
  rw [if_neg (by omega)]
  by_cases hc : n ≤ L
  · -- served from the residual buffer, no byte read
    have hk0 : k = 0 := by rw [hk, bytes_for, if_pos hc]
    subst hk0
    have hr' : r = L - n := by omega
    subst hr'
    have hneg : ¬ (0 : Int) < (n : Int) - s.bits_left := by
      rw [hbl]; omega
    rw [if_neg hneg]
    simp only [hbl, Prod.mk.injEq, Except.ok.injEq, ReaderState.mk.injEq]
    refine ⟨?_, ?_, ?_, ?_⟩
    · rw [Nat.shiftRight_eq_div_pow]
      have h1 : (-(↑n - (L : Int))).toNat = L - n := by omega
      rw [h1]
      simp [beVal]
    · omega
    · have h2 : -(↑n - (L : Int)) % 8 = ((L - n : Nat) : Int) := by omega
      rw [h2]
      simp [beVal]
    · omega
  · -- bytes must be read
    have hcc : L < n := by omega
    obtain ⟨hge, hrle, hkle, hkpos⟩ := bytes_for_bounds L n hL hn hcc
    rw [← hk] at hge hrle hkle hkpos
    have h0 : (0 : Int) < (n : Int) - s.bits_left := by
      rw [hbl]; omega
    rw [if_pos h0]
    rw [hbl, bytes_needed_for_eq L n hcc, ← hk]
    have hbne : read_bytes src { s with bits_left := -((n : Int) - (L : Int)) % 8 } k =
        (.ok ((src.drop s.pos).take k),
          { s with bits_left := -((n : Int) - (L : Int)) % 8, pos := s.pos + k }) := by
      rw [read_bytes_ok_eq]
      exact henough
    rw [hbne]
    simp only []
    set buf := (src.drop s.pos).take k with hbuf
    have hbuf_bytes : ∀ b ∈ buf, b < 256 := take_drop_bytes src hsrc s.pos k
    have hbuf_len : buf.length = k := take_drop_length src s.pos k henough
    have hraw : buf.foldl (fun acc b => ((acc <<< 8) ||| b) % 2 ^ 64) 0 = beVal buf :=
      be_fold_mod_eq buf hbuf_bytes (by rw [hbuf_len]; omega)
    have hblr : -((n : Int) - (L : Int)) % 8 = ((r : Nat) : Int) := by omega
    have hblrt : (-((n : Int) - (L : Int)) % 8).toNat = r := by
      rw [hblr]; simp
    have hbnt : ((n : Int) - (L : Int)).toNat = n - L := by omega
    have hbeval_lt : beVal buf < 2 ^ (8 * k) := by
      have := beVal_lt buf hbuf_bytes
      rwa [hbuf_len] at this
    have hpowsplit : 2 ^ (8 * k) = 2 ^ (n - L) * 2 ^ r := by
      rw [← pow_add]
      congr 1
      omega
    have hres1_lt : beVal buf / 2 ^ r < 2 ^ (n - L) := by
      rw [Nat.div_lt_iff_lt_mul (Nat.pos_pow_of_pos r (by norm_num))]
      calc beVal buf < 2 ^ (8 * k) := hbeval_lt
        _ = 2 ^ (n - L) * 2 ^ r := hpowsplit
    have hdivtarget :
        (s.bits * 2 ^ (8 * k) + beVal buf) / 2 ^ r =
          2 ^ (n - L) * s.bits + beVal buf / 2 ^ r := by
      rw [hpowsplit]
      have harr : s.bits * (2 ^ (n - L) * 2 ^ r) =
          2 ^ r * (2 ^ (n - L) * s.bits) := by ring
      rw [harr, Nat.mul_add_div (Nat.pos_pow_of_pos r (by norm_num))]
    have hmodtarget :
        (s.bits * 2 ^ (8 * k) + beVal buf) % 2 ^ r = beVal buf % 2 ^ r := by
      rw [hpowsplit]
      have harr : s.bits * (2 ^ (n - L) * 2 ^ r) =
          2 ^ r * (2 ^ (n - L) * s.bits) := by ring
      rw [harr, Nat.mul_add_mod]
    rw [hraw, hblrt, hdivtarget, hmodtarget, Nat.shiftRight_eq_div_pow]
    simp only [Prod.mk.injEq, Except.ok.injEq, ReaderState.mk.injEq]
    refine ⟨?_, trivial, trivial, by omega⟩
    by_cases hbn : (n : Int) - (L : Int) < 64
    · rw [if_pos hbn, hbnt]
      have hshift : s.bits <<< (n - L) = 2 ^ (n - L) * s.bits := by
        rw [Nat.shiftLeft_eq, Nat.mul_comm]
      have hlt64 : 2 ^ (n - L) * s.bits < 2 ^ 64 := by
        have h1 : 2 ^ (n - L) * s.bits < 2 ^ (n - L) * 2 ^ L :=
          mul_lt_mul_of_pos_left hmask (pow_pos (by norm_num) _)
        have h2 : 2 ^ (n - L) * 2 ^ L = 2 ^ n := by
          rw [← pow_add]
          congr 1
          omega
        have h3 : (2 : Nat) ^ n ≤ 2 ^ 64 := Nat.pow_le_pow_right (by norm_num) hn
        omega
      rw [hshift, Nat.mod_eq_of_lt hlt64, Nat.lor_comm,
        lor_two_pow_mul_add s.bits (beVal buf / 2 ^ r) hres1_lt]
    · -- n - L = 64 forces L = 0 and bits = 0
      rw [if_neg hbn]
      have hL0 : L = 0 := by omega
      have hbits0 : s.bits = 0 := by
        rw [hL0] at hmask
        simpa using hmask
      rw [hbits0]
      simp

theorem read_bits_int_le_spec (src : List Nat) (s : ReaderState) (n L k r : Nat)
    (hsrc : ByteSrc src) (hn : n ≤ 64)
    (hbl : s.bits_left = (L : Int)) (hL : L ≤ 7)
    (hmask : s.bits < 2 ^ L)
    (hk : k = bytes_for L n) (hr : r = L + 8 * k - n)
    (henough : s.pos + k ≤ src.length) :
    read_bits_int_le src s n =
      (.ok ((s.bits + 2 ^ L * leVal ((src.drop s.pos).take k)) % 2 ^ n),
        ⟨s.pos + k,
          (s.bits + 2 ^ L * leVal ((src.drop s.pos).take k)) / 2 ^ n,
          ((L : Int) - (n : Int)) % 8⟩) := by
  have htn : ((L : Int)).toNat = L := rfl
  rw [read_bits_int_le]
  rw [if_neg (by omega)]
  by_cases hc : n ≤ L
  · -- served from the residual buffer, no byte read
    have hk0 : k = 0 := by rw [hk, bytes_for, if_pos hc]
    subst hk0
    have hneg : ¬ (0 : Int) < (n : Int) - s.bits_left := by
      rw [hbl]; omega
    rw [if_neg hneg]
    simp only []
    rw [if_pos (show n < 64 by omega)]
    simp only [hbl, Prod.mk.injEq, Except.ok.injEq, ReaderState.mk.injEq]
    refine ⟨by simp [leVal], ?_, ?_, by omega⟩
    · omega
    · rw [Nat.shiftRight_eq_div_pow]
      simp [leVal]
  · -- bytes must be read
    have hcc : L < n := by omega
    obtain ⟨hge, hrle, hkle, hkpos⟩ := bytes_for_bounds L n hL hn hcc
    rw [← hk] at hge hrle hkle hkpos
    have h0 : (0 : Int) < (n : Int) - s.bits_left := by
      rw [hbl]; omega
    rw [if_pos h0]
    rw [hbl, bytes_needed_for_eq L n hcc, ← hk]
    have hbne : read_bytes src s k =
        (.ok ((src.drop s.pos).take k), { s with pos := s.pos + k }) :=
      read_bytes_ok_eq src s k henough
    rw [hbne]
    simp only [htn]
    set buf := (src.drop s.pos).take k with hbuf
    have hbuf_bytes : ∀ b ∈ buf, b < 256 := take_drop_bytes src hsrc s.pos k
    have hbuf_len : buf.length = k := take_drop_length src s.pos k henough
    have hraw : lePack buf = leVal buf := lePack_eq buf hbuf_bytes
    have hbnt : ((n : Int) - (L : Int)).toNat = n - L := by omega
    have hlv_lt : leVal buf < 2 ^ (8 * k) := by
      have := leVal_lt buf hbuf_bytes
      rwa [hbuf_len] at this
    have hp64 : 2 ^ 64 = 2 ^ (64 - L) * 2 ^ L := by
      rw [← pow_add]
      congr 1
      omega
    have hpn : 2 ^ n = 2 ^ L * 2 ^ (n - L) := by
      rw [← pow_add]
      congr 1
      omega
    -- the assembled result before the final mask
    have hres1 : (leVal buf <<< L) % 2 ^ 64 ||| s.bits =
        2 ^ L * (leVal buf % 2 ^ (64 - L)) + s.bits := by
      have h1 : leVal buf <<< L = leVal buf * 2 ^ L := Nat.shiftLeft_eq _ _
      have h2 : (leVal buf * 2 ^ L) % 2 ^ 64 = (leVal buf % 2 ^ (64 - L)) * 2 ^ L := by
        rw [hp64, Nat.mul_mod_mul_right]
      have h3 : (leVal buf % 2 ^ (64 - L)) * 2 ^ L = 2 ^ L * (leVal buf % 2 ^ (64 - L)) :=
        Nat.mul_comm _ _
      rw [h1, h2, h3, lor_two_pow_mul_add _ _ hmask]
    -- the window decomposition through div/mod at 64 - L
    have hsplitlv : s.bits + 2 ^ L * leVal buf =
        (2 ^ L * (leVal buf % 2 ^ (64 - L)) + s.bits) +
          (leVal buf / 2 ^ (64 - L)) * 2 ^ 64 := by
      have h4 := Nat.div_add_mod (leVal buf) (2 ^ (64 - L))
      calc s.bits + 2 ^ L * leVal buf
          = s.bits + 2 ^ L * (2 ^ (64 - L) * (leVal buf / 2 ^ (64 - L)) +
              leVal buf % 2 ^ (64 - L)) := by rw [h4]
        _ = (2 ^ L * (leVal buf % 2 ^ (64 - L)) + s.bits) +
              (leVal buf / 2 ^ (64 - L)) * (2 ^ (64 - L) * 2 ^ L) := by ring
        _ = (2 ^ L * (leVal buf % 2 ^ (64 - L)) + s.bits) +
              (leVal buf / 2 ^ (64 - L)) * 2 ^ 64 := by rw [← hp64]
    have hsmall : 2 ^ L * (leVal buf % 2 ^ (64 - L)) + s.bits < 2 ^ 64 := by
      have h5 : leVal buf % 2 ^ (64 - L) < 2 ^ (64 - L) :=
        Nat.mod_lt _ (Nat.pos_pow_of_pos _ (by norm_num))
      have h6 : 2 ^ L * (leVal buf % 2 ^ (64 - L)) + s.bits <
          2 ^ L * 2 ^ (64 - L) := by
        have h7 : leVal buf % 2 ^ (64 - L) + 1 ≤ 2 ^ (64 - L) := h5
        have h8 : 2 ^ L * (leVal buf % 2 ^ (64 - L) + 1) ≤ 2 ^ L * 2 ^ (64 - L) :=
          Nat.mul_le_mul_left _ h7
        have h9 : 2 ^ L * (leVal buf % 2 ^ (64 - L) + 1) =
            2 ^ L * (leVal buf % 2 ^ (64 - L)) + 2 ^ L := by ring
        omega
      have h10 : 2 ^ L * 2 ^ (64 - L) = 2 ^ 64 := by
        rw [← pow_add]
        congr 1
        omega
      omega
    -- value: both the masked and unmasked cases equal the window mod 2^n
    have hval : ∀ x : Nat, ((2 ^ L * (leVal buf % 2 ^ (64 - L)) + s.bits) +
        x * 2 ^ 64) % 2 ^ n = ((2 ^ L * (leVal buf % 2 ^ (64 - L)) + s.bits) % 2 ^ n) := by
      intro x
      have h11 : x * 2 ^ 64 = (x * 2 ^ (64 - n)) * 2 ^ n := by
        rw [Nat.mul_assoc, ← pow_add]
        congr 2
        omega
      rw [h11, Nat.add_mul_mod_self_right]
    -- bits: the kept high part equals the window shifted down by n
    have hbits : (s.bits + 2 ^ L * leVal buf) / 2 ^ n =
        leVal buf / 2 ^ (n - L) := by
      rw [hpn, ← Nat.div_div_eq_div_mul,
        Nat.add_mul_div_left _ _ (Nat.pos_pow_of_pos L (by norm_num)),
        Nat.div_eq_of_lt hmask, Nat.zero_add]
    by_cases hbn : (n : Int) - (L : Int) < 64
    · rw [if_pos hbn]
      simp only [hraw, hbnt, hres1, Prod.mk.injEq, Except.ok.injEq, ReaderState.mk.injEq]
      refine ⟨?_, trivial, ?_, by omega⟩
      · -- returned value
        by_cases hn64 : n < 64
        · rw [if_pos hn64, hsplitlv, hval]
        · rw [if_neg hn64]
          have hn' : n = 64 := by omega
          rw [hsplitlv, hn']
          rw [Nat.add_mul_mod_self_right, Nat.mod_eq_of_lt hsmall]
      · -- kept bits
        rw [Nat.shiftRight_eq_div_pow, hbits]
    · -- bits_needed = 64 forces L = 0, bits = 0, n = 64
      rw [if_neg hbn]
      have hL0 : L = 0 := by omega
      have hn' : n = 64 := by omega
      have hbits0 : s.bits = 0 := by
        rw [hL0] at hmask
        simpa using hmask
      rw [if_neg (by omega)]
      simp only [hraw, hres1, Prod.mk.injEq, Except.ok.injEq, ReaderState.mk.injEq]
      refine ⟨?_, trivial, ?_, by omega⟩
      · rw [hsplitlv, hn']
        rw [Nat.add_mul_mod_self_right, Nat.mod_eq_of_lt hsmall]
      · rw [hbits0, hL0] at hbits ⊢
        rw [hbits, hn']
        have hk8 : k = 8 := by
          rw [hk, hn', hL0]
          rfl
        have hlt : leVal buf < 2 ^ (64 - 0) := by
          have h12 := hlv_lt
          rw [hk8] at h12
          simpa using h12
        rw [Nat.div_eq_of_lt hlt]

/-! ## Arithmetic for composing two bit reads -/

theorem bytes_for_ge (L n : Nat) (hL : L ≤ 7) (hn : n ≤ 64) :
    n ≤ L + 8 * bytes_for L n ∧ L + 8 * bytes_for L n - n ≤ 7 ∧
      bytes_for L n ≤ 8 := by
  rw [bytes_for]
  split_ifs with h
  · omega
  · omega

theorem bytes_for_split (L a b : Nat) (hL : L ≤ 7) (hab : a + b ≤ 64) :
    bytes_for L (a + b) = bytes_for L a + bytes_for (L + 8 * bytes_for L a - a) b ∧
    L + 8 * bytes_for L (a + b) - (a + b) =
      (L + 8 * bytes_for L a - a) + 8 * bytes_for (L + 8 * bytes_for L a - a) b - b := by
  simp only [bytes_for]
  split_ifs <;> omega

theorem mod_mul_split (x y c m : Nat) (hy : y < c) (hm : 0 < m) :
    (x * c + y) % (m * c) = x % m * c + y := by
  have hx := Nat.div_add_mod x m
  have harr : x * c + y = (x % m * c + y) + (x / m) * (m * c) := by
    calc x * c + y = (m * (x / m) + x % m) * c + y := by rw [hx]
      _ = (x % m * c + y) + (x / m) * (m * c) := by ring
  rw [harr, Nat.add_mul_mod_self_right]
  have hlt : x % m * c + y < m * c := by
    have h1 : x % m < m := Nat.mod_lt _ hm
    have h2 : (x % m + 1) * c ≤ m * c := Nat.mul_le_mul_right _ h1
    have h3 : (x % m + 1) * c = x % m * c + c := by ring
    omega
  exact Nat.mod_eq_of_lt hlt

/-- Composing two big-endian windows: reading `a` bits (leaving `r1` low
bits of the first window) and then `b` bits over `k2` more bytes equals one
read over the concatenated window. -/
theorem be_window_compose (β bv1 bv2 k1 k2 r1 r2 b : Nat)
    (hbv2 : bv2 < 2 ^ (8 * k2)) (hr2 : b + r2 = r1 + 8 * k2) :
    ((β * 2 ^ (8 * k1) + bv1) / 2 ^ r1) * 2 ^ b +
      (((β * 2 ^ (8 * k1) + bv1) % 2 ^ r1) * 2 ^ (8 * k2) + bv2) / 2 ^ r2 =
      (β * 2 ^ (8 * (k1 + k2)) + (bv1 * 2 ^ (8 * k2) + bv2)) / 2 ^ r2 ∧
    (((β * 2 ^ (8 * k1) + bv1) % 2 ^ r1) * 2 ^ (8 * k2) + bv2) % 2 ^ r2 =
      (β * 2 ^ (8 * (k1 + k2)) + (bv1 * 2 ^ (8 * k2) + bv2)) % 2 ^ r2 := by
  have hWW : β * 2 ^ (8 * (k1 + k2)) + (bv1 * 2 ^ (8 * k2) + bv2) =
      (β * 2 ^ (8 * k1) + bv1) * 2 ^ (8 * k2) + bv2 := by
    rw [Nat.mul_add 8 k1 k2, pow_add]
    ring
  rw [hWW]
  generalize β * 2 ^ (8 * k1) + bv1 = W1
  have hsplit : (W1 * 2 ^ (8 * k2) + bv2) % (2 ^ r1 * 2 ^ (8 * k2)) =
      (W1 % 2 ^ r1) * 2 ^ (8 * k2) + bv2 :=
    mod_mul_split W1 bv2 (2 ^ (8 * k2)) (2 ^ r1) hbv2
      (Nat.pos_pow_of_pos _ (by norm_num))
  have hp1 : 2 ^ r1 * 2 ^ (8 * k2) = 2 ^ (r1 + 8 * k2) := by rw [← pow_add]
  have hp2 : 2 ^ (r1 + 8 * k2) = 2 ^ r2 * 2 ^ b := by
    rw [← pow_add]
    congr 1
    omega
  have hdvd : 2 ^ r2 ∣ 2 ^ (r1 + 8 * k2) := pow_dvd_pow 2 (by omega)
  rw [hp1] at hsplit
  have hW1div : W1 = (W1 * 2 ^ (8 * k2) + bv2) / 2 ^ (8 * k2) := by
    have h1 : W1 * 2 ^ (8 * k2) + bv2 = 2 ^ (8 * k2) * W1 + bv2 := by ring
    rw [h1, Nat.mul_add_div (Nat.pos_pow_of_pos _ (by norm_num)),
      Nat.div_eq_of_lt hbv2, Nat.add_zero]
  have hdd : (W1 * 2 ^ (8 * k2) + bv2) / 2 ^ (8 * k2) / 2 ^ r1 =
      (W1 * 2 ^ (8 * k2) + bv2) / 2 ^ (r2 + b) := by
    rw [Nat.div_div_eq_div_mul, ← pow_add]
    congr 2
    omega
  have hmd : (W1 * 2 ^ (8 * k2) + bv2) % 2 ^ (r1 + 8 * k2) / 2 ^ r2 =
      (W1 * 2 ^ (8 * k2) + bv2) / 2 ^ r2 % 2 ^ b := by
    rw [hp2, Nat.mod_mul_right_div_self]
  have hdd2 : (W1 * 2 ^ (8 * k2) + bv2) / 2 ^ (r2 + b) =
      (W1 * 2 ^ (8 * k2) + bv2) / 2 ^ r2 / 2 ^ b := by
    rw [Nat.div_div_eq_div_mul, ← pow_add]
  have hv1 : W1 / 2 ^ r1 = (W1 * 2 ^ (8 * k2) + bv2) / 2 ^ (r2 + b) := by
    conv_rhs => rw [← hdd]
    rw [← hW1div]
  constructor
  · rw [hv1, ← hsplit, hmd, hdd2,
      Nat.mul_comm ((W1 * 2 ^ (8 * k2) + bv2) / 2 ^ r2 / 2 ^ b) (2 ^ b)]
    exact Nat.div_add_mod _ _
  · rw [← hsplit, Nat.mod_mod_of_dvd _ hdvd]

/-- Composing two little-endian windows: reading `a` bits (keeping the high
part of the first window) and then `b` bits over more bytes equals one read
over the concatenated window. -/
theorem le_window_compose (β lv1 lv2 L k1 r1 a b : Nat)
    (hr1 : a + r1 = L + 8 * k1) :
    ((β + 2 ^ L * lv1) / 2 ^ a + 2 ^ r1 * lv2) % 2 ^ b * 2 ^ a +
        (β + 2 ^ L * lv1) % 2 ^ a =
      (β + 2 ^ L * (lv1 + 2 ^ (8 * k1) * lv2)) % 2 ^ (a + b) ∧
    ((β + 2 ^ L * lv1) / 2 ^ a + 2 ^ r1 * lv2) / 2 ^ b =
      (β + 2 ^ L * (lv1 + 2 ^ (8 * k1) * lv2)) / 2 ^ (a + b) := by
  have hWW : β + 2 ^ L * (lv1 + 2 ^ (8 * k1) * lv2) =
      (β + 2 ^ L * lv1) + 2 ^ a * (2 ^ r1 * lv2) := by
    have h1 : 2 ^ L * 2 ^ (8 * k1) = 2 ^ a * 2 ^ r1 := by
      rw [← pow_add, ← pow_add]
      congr 1
      omega
    calc β + 2 ^ L * (lv1 + 2 ^ (8 * k1) * lv2)
        = β + 2 ^ L * lv1 + (2 ^ L * 2 ^ (8 * k1)) * lv2 := by ring
      _ = β + 2 ^ L * lv1 + (2 ^ a * 2 ^ r1) * lv2 := by rw [h1]
      _ = (β + 2 ^ L * lv1) + 2 ^ a * (2 ^ r1 * lv2) := by ring
  rw [hWW]
  generalize β + 2 ^ L * lv1 = W1
  have hdiv : (W1 + 2 ^ a * (2 ^ r1 * lv2)) / 2 ^ a = W1 / 2 ^ a + 2 ^ r1 * lv2 :=
    Nat.add_mul_div_left _ _ (Nat.pos_pow_of_pos _ (by norm_num))
  have hmod : (W1 + 2 ^ a * (2 ^ r1 * lv2)) % 2 ^ a = W1 % 2 ^ a := by
    have h2 : W1 + 2 ^ a * (2 ^ r1 * lv2) = W1 + (2 ^ r1 * lv2) * 2 ^ a := by ring
    rw [h2, Nat.add_mul_mod_self_right]
  constructor
  · rw [pow_add, Nat.mod_mul, hdiv, hmod]
    ring
  · rw [pow_add, ← Nat.div_div_eq_div_mul, hdiv]

theorem read_bits_be_split (src : List Nat) (s : ReaderState) (a b L : Nat)
    (hsrc : ByteSrc src) (hbl : s.bits_left = (L : Int)) (hL : L ≤ 7)
    (hmask : s.bits < 2 ^ L) (hab : a + b ≤ 64)
    (henough : s.pos + bytes_for L (a + b) ≤ src.length) :
    ∃ v1 s1 v2 s2,
      read_bits_int_be src s a = (.ok v1, s1) ∧
      read_bits_int_be src s1 b = (.ok v2, s2) ∧
      read_bits_int_be src s (a + b) = (.ok (v1 * 2 ^ b + v2), s2) := by
  obtain ⟨hksum, hrsum⟩ := bytes_for_split L a b hL hab
  obtain ⟨hga, hra, hka⟩ := bytes_for_ge L a hL (by omega)
  obtain ⟨hgb, hrb, hkb⟩ := bytes_for_ge (L + 8 * bytes_for L a - a) b hra (by omega)
  obtain ⟨hgm, hrm, hkm⟩ := bytes_for_ge L (a + b) hL hab
  have h1 := read_bits_int_be_spec src s a L (bytes_for L a)
    (L + 8 * bytes_for L a - a) hsrc (by omega) hbl hL hmask rfl rfl (by omega)
  have hs1bl : ((L : Int) - (a : Int)) % 8 =
      ((L + 8 * bytes_for L a - a : Nat) : Int) := by omega
  have hmask1 : (s.bits * 2 ^ (8 * bytes_for L a) +
        beVal ((src.drop s.pos).take (bytes_for L a))) %
        2 ^ (L + 8 * bytes_for L a - a) < 2 ^ (L + 8 * bytes_for L a - a) :=
    Nat.mod_lt _ (Nat.pos_pow_of_pos _ (by norm_num))
  have h2 := read_bits_int_be_spec src
    ⟨s.pos + bytes_for L a,
      (s.bits * 2 ^ (8 * bytes_for L a) +
        beVal ((src.drop s.pos).take (bytes_for L a))) %
        2 ^ (L + 8 * bytes_for L a - a),
      ((L : Int) - (a : Int)) % 8⟩ b (L + 8 * bytes_for L a - a)
    (bytes_for (L + 8 * bytes_for L a - a) b)
    ((L + 8 * bytes_for L a - a) + 8 * bytes_for (L + 8 * bytes_for L a - a) b - b)
    hsrc (by omega) hs1bl hra hmask1 rfl rfl
    (show s.pos + bytes_for L a + bytes_for (L + 8 * bytes_for L a - a) b ≤
      src.length by omega)
  simp only [] at h2
  have h3 := read_bits_int_be_spec src s (a + b) L (bytes_for L (a + b))
    (L + 8 * bytes_for L (a + b) - (a + b)) hsrc hab hbl hL hmask rfl rfl henough
  refine ⟨_, _, _, _, h1, h2, ?_⟩
  rw [h3]
  -- identify the two windows
  have hbufsum : (src.drop s.pos).take (bytes_for L (a + b)) =
      (src.drop s.pos).take (bytes_for L a) ++
        (src.drop (s.pos + bytes_for L a)).take
          (bytes_for (L + 8 * bytes_for L a - a) b) := by
    rw [hksum, List.take_add, List.drop_drop]
  have hlen2 : ((src.drop (s.pos + bytes_for L a)).take
      (bytes_for (L + 8 * bytes_for L a - a) b)).length =
      bytes_for (L + 8 * bytes_for L a - a) b :=
    take_drop_length src (s.pos + bytes_for L a) _ (by omega)
  have hbv2lt : beVal ((src.drop (s.pos + bytes_for L a)).take
      (bytes_for (L + 8 * bytes_for L a - a) b)) <
      2 ^ (8 * bytes_for (L + 8 * bytes_for L a - a) b) := by
    have := beVal_lt _ (take_drop_bytes src hsrc (s.pos + bytes_for L a)
      (bytes_for (L + 8 * bytes_for L a - a) b))
    rwa [hlen2] at this
  have hconcat : beVal ((src.drop s.pos).take (bytes_for L (a + b))) =
      beVal ((src.drop s.pos).take (bytes_for L a)) *
        2 ^ (8 * bytes_for (L + 8 * bytes_for L a - a) b) +
        beVal ((src.drop (s.pos + bytes_for L a)).take
          (bytes_for (L + 8 * bytes_for L a - a) b)) := by
    rw [hbufsum, beVal_append, hlen2]
  obtain ⟨hcval, hcmod⟩ := be_window_compose s.bits
    (beVal ((src.drop s.pos).take (bytes_for L a)))
    (beVal ((src.drop (s.pos + bytes_for L a)).take
      (bytes_for (L + 8 * bytes_for L a - a) b)))
    (bytes_for L a) (bytes_for (L + 8 * bytes_for L a - a) b)
    (L + 8 * bytes_for L a - a)
    ((L + 8 * bytes_for L a - a) + 8 * bytes_for (L + 8 * bytes_for L a - a) b - b)
    b hbv2lt (by omega)
  simp only [Prod.mk.injEq, Except.ok.injEq, ReaderState.mk.injEq]
  refine ⟨?_, ?_, ?_, ?_⟩
  · -- values concatenate
    rw [hconcat, hrsum, hksum]
    exact hcval.symm
  · omega
  · -- final residual bits agree
    rw [hconcat, hrsum, hksum]
    exact hcmod.symm
  · omega

theorem read_bits_le_split (src : List Nat) (s : ReaderState) (a b L : Nat)
    (hsrc : ByteSrc src) (hbl : s.bits_left = (L : Int)) (hL : L ≤ 7)
    (hmask : s.bits < 2 ^ L) (hab : a + b ≤ 64)
    (henough : s.pos + bytes_for L (a + b) ≤ src.length) :
    ∃ w1 t1 w2 t2,
      read_bits_int_le src s a = (.ok w1, t1) ∧
      read_bits_int_le src t1 b = (.ok w2, t2) ∧
      read_bits_int_le src s (a + b) = (.ok (w2 * 2 ^ a + w1), t2) := by
  obtain ⟨hksum, hrsum⟩ := bytes_for_split L a b hL hab
  obtain ⟨hga, hra, hka⟩ := bytes_for_ge L a hL (by omega)
  obtain ⟨hgb, hrb, hkb⟩ := bytes_for_ge (L + 8 * bytes_for L a - a) b hra (by omega)
  obtain ⟨hgm, hrm, hkm⟩ := bytes_for_ge L (a + b) hL hab
  have h1 := read_bits_int_le_spec src s a L (bytes_for L a)
    (L + 8 * bytes_for L a - a) hsrc (by omega) hbl hL hmask rfl rfl (by omega)
  have hs1bl : ((L : Int) - (a : Int)) % 8 =
      ((L + 8 * bytes_for L a - a : Nat) : Int) := by omega
  have hmask1 : (s.bits + 2 ^ L * leVal ((src.drop s.pos).take (bytes_for L a))) /
      2 ^ a < 2 ^ (L + 8 * bytes_for L a - a) := by
    have hlen1 : ((src.drop s.pos).take (bytes_for L a)).length = bytes_for L a :=
      take_drop_length src s.pos _ (by omega)
    have hlv1 : leVal ((src.drop s.pos).take (bytes_for L a)) <
        2 ^ (8 * bytes_for L a) := by
      have := leVal_lt _ (take_drop_bytes src hsrc s.pos (bytes_for L a))
      rwa [hlen1] at this
    rw [Nat.div_lt_iff_lt_mul (Nat.pos_pow_of_pos a (by norm_num)), ← pow_add]
    calc s.bits + 2 ^ L * leVal ((src.drop s.pos).take (bytes_for L a))
        < 2 ^ L + 2 ^ L * leVal ((src.drop s.pos).take (bytes_for L a)) := by omega
      _ = 2 ^ L * (leVal ((src.drop s.pos).take (bytes_for L a)) + 1) := by ring
      _ ≤ 2 ^ L * 2 ^ (8 * bytes_for L a) := Nat.mul_le_mul_left _ (by omega)
      _ = 2 ^ (L + 8 * bytes_for L a) := by rw [← pow_add]
      _ ≤ 2 ^ (L + 8 * bytes_for L a - a + a) := by
          apply Nat.pow_le_pow_right (by norm_num)
          omega
  have h2 := read_bits_int_le_spec src
    ⟨s.pos + bytes_for L a,
      (s.bits + 2 ^ L * leVal ((src.drop s.pos).take (bytes_for L a))) / 2 ^ a,
      ((L : Int) - (a : Int)) % 8⟩ b (L + 8 * bytes_for L a - a)
    (bytes_for (L + 8 * bytes_for L a - a) b)
    ((L + 8 * bytes_for L a - a) + 8 * bytes_for (L + 8 * bytes_for L a - a) b - b)
    hsrc (by omega) hs1bl hra hmask1 rfl rfl
    (show s.pos + bytes_for L a + bytes_for (L + 8 * bytes_for L a - a) b ≤
      src.length by omega)
  simp only [] at h2
  have h3 := read_bits_int_le_spec src s (a + b) L (bytes_for L (a + b))
    (L + 8 * bytes_for L (a + b) - (a + b)) hsrc hab hbl hL hmask rfl rfl henough
  refine ⟨_, _, _, _, h1, h2, ?_⟩
  rw [h3]
  have hlen1 : ((src.drop s.pos).take (bytes_for L a)).length = bytes_for L a :=
    take_drop_length src s.pos _ (by omega)
  have hbufsum : (src.drop s.pos).take (bytes_for L (a + b)) =
      (src.drop s.pos).take (bytes_for L a) ++
        (src.drop (s.pos + bytes_for L a)).take
          (bytes_for (L + 8 * bytes_for L a - a) b) := by
    rw [hksum, List.take_add, List.drop_drop]
  have hconcat : leVal ((src.drop s.pos).take (bytes_for L (a + b))) =
      leVal ((src.drop s.pos).take (bytes_for L a)) +
        2 ^ (8 * bytes_for L a) *
          leVal ((src.drop (s.pos + bytes_for L a)).take
            (bytes_for (L + 8 * bytes_for L a - a) b)) := by
    rw [hbufsum, leVal_append, hlen1]
  obtain ⟨hcval, hcmod⟩ := le_window_compose s.bits
    (leVal ((src.drop s.pos).take (bytes_for L a)))
    (leVal ((src.drop (s.pos + bytes_for L a)).take
      (bytes_for (L + 8 * bytes_for L a - a) b)))
    L (bytes_for L a) (L + 8 * bytes_for L a - a) a b (by omega)
  simp only [Prod.mk.injEq, Except.ok.injEq, ReaderState.mk.injEq]
  refine ⟨?_, ?_, ?_, ?_⟩
  · rw [hconcat]
    exact hcval.symm
  · omega
  · rw [hconcat]
    exact hcmod.symm
  · omega

/-! ## C4: splitting a bit read -/

/-- C4: on a valid reader state with enough bytes available, reading `a + b`
bits in one call (either bit endianness) yields the same value as reading
`a` bits then `b` bits and concatenating in that endianness's bit order
(first chunk more significant for big-endian, less significant for
little-endian), and both ways leave the reader in the same final state. -/
theorem c4_read_bits_split (src : List Nat) (s : ReaderState) (a b : Nat)
    (hsrc : ByteSrc src) (hvalid : ValidBits s) (hab : a + b ≤ 64)
    (henough : s.pos + bytes_for s.bits_left.toNat (a + b) ≤ src.length) :
    (∃ v1 s1 v2 s2,
      read_bits_int_be src s a = (.ok v1, s1) ∧
      read_bits_int_be src s1 b = (.ok v2, s2) ∧
      read_bits_int_be src s (a + b) = (.ok (v1 * 2 ^ b + v2), s2)) ∧
    (∃ w1 t1 w2 t2,
      read_bits_int_le src s a = (.ok w1, t1) ∧
      read_bits_int_le src t1 b = (.ok w2, t2) ∧
      read_bits_int_le src s (a + b) = (.ok (w2 * 2 ^ a + w1), t2)) := by
  obtain ⟨h0, h7, hm⟩ := hvalid
  have hbl : s.bits_left = ((s.bits_left.toNat : Nat) : Int) :=
    (Int.toNat_of_nonneg h0).symm
  have hL : s.bits_left.toNat ≤ 7 := by omega
  exact ⟨read_bits_be_split src s a b s.bits_left.toNat hsrc hbl hL hm hab henough,
    read_bits_le_split src s a b s.bits_left.toNat hsrc hbl hL hm hab henough⟩

/-- C4 witness. -/
theorem c4_read_bits_split_witness :
    (∃ v1 s1 v2 s2,
      read_bits_int_be [222, 173, 190] ReaderState.fresh 13 = (.ok v1, s1) ∧
      read_bits_int_be [222, 173, 190] s1 11 = (.ok v2, s2) ∧
      read_bits_int_be [222, 173, 190] ReaderState.fresh (13 + 11) =
        (.ok (v1 * 2 ^ 11 + v2), s2)) ∧
    (∃ w1 t1 w2 t2,
      read_bits_int_le [222, 173, 190] ReaderState.fresh 13 = (.ok w1, t1) ∧
      read_bits_int_le [222, 173, 190] t1 11 = (.ok w2, t2) ∧
      read_bits_int_le [222, 173, 190] ReaderState.fresh (13 + 11) =
        (.ok (w2 * 2 ^ 13 + w1), t2)) :=
  c4_read_bits_split [222, 173, 190] ReaderState.fresh 13 11 (by decide)
    (by decide) (by decide) (by decide)

/-! ## C7: the bit-buffer invariant -/

theorem valid_bits_fresh : ValidBits ReaderState.fresh := by decide

theorem valid_seek {src : List Nat} {s s2 : ReaderState} {p : Nat} {u : Unit}
    (h : seek src s p = (.ok u, s2)) (hv : ValidBits s) : ValidBits s2 := by
  rw [seek] at h
  split at h
  · simp at h
  · have h2 := congrArg Prod.snd h
    simp only [] at h2
    rw [← h2]
    exact hv

theorem valid_align {s s2 : ReaderState} {u : Unit}
    (h : align_to_byte s = (.ok u, s2)) : ValidBits s2 := by
  rw [align_to_byte] at h
  have h2 := congrArg Prod.snd h
  simp only [] at h2
  rw [← h2]
  exact ⟨le_refl 0, by norm_num, by norm_num⟩

theorem valid_read_bytes {src : List Nat} {s s2 : ReaderState} {n : Nat}
    {bs : List Nat} (h : read_bytes src s n = (.ok bs, s2)) (hv : ValidBits s) :
    ValidBits s2 := by
  rw [read_bytes] at h
  split at h
  · simp at h
  · have h2 := congrArg Prod.snd h
    simp only [] at h2
    rw [← h2]
    exact hv

theorem valid_read_bits_be {src : List Nat} {s s2 : ReaderState} {n v : Nat}
    (h : read_bits_int_be src s n = (.ok v, s2)) : ValidBits s2 := by
  have hemod0 : (0 : Int) ≤ -((n : Int) - s.bits_left) % 8 :=
    Int.emod_nonneg _ (by norm_num)
  have hemod7 : -((n : Int) - s.bits_left) % 8 < 8 :=
    Int.emod_lt_of_pos _ (by norm_num)
  have hle7 : -((n : Int) - s.bits_left) % 8 ≤ 7 := by omega
  by_cases h64 : n > 64
  · rw [read_bits_int_be, if_pos h64] at h
    simp at h
  · rw [read_bits_int_be, if_neg h64] at h
    simp only [] at h
    by_cases hpos : (0 : Int) < (n : Int) - s.bits_left
    · rw [if_pos hpos] at h
      by_cases hguard : bytes_needed_for s.bits_left n + s.pos > src.length
      · rw [read_bytes, if_pos hguard] at h
        simp at h
      · rw [read_bytes, if_neg hguard] at h
        simp only [] at h
        have h2 := congrArg Prod.snd h
        simp only [] at h2
        rw [← h2]
        exact ⟨hemod0, hle7,
          Nat.mod_lt _ (Nat.pos_pow_of_pos _ (by norm_num))⟩
    · rw [if_neg hpos] at h
      have h2 := congrArg Prod.snd h
      simp only [] at h2
      rw [← h2]
      exact ⟨hemod0, hle7,
        Nat.mod_lt _ (Nat.pos_pow_of_pos _ (by norm_num))⟩

theorem valid_read_bits_le {src : List Nat} {s s2 : ReaderState} {n v : Nat}
    (hsrc : ByteSrc src) (hv : ValidBits s)
    (h : read_bits_int_le src s n = (.ok v, s2)) : ValidBits s2 := by
  obtain ⟨h0, h7, hm⟩ := hv
  have hbl : s.bits_left = ((s.bits_left.toNat : Nat) : Int) :=
    (Int.toNat_of_nonneg h0).symm
  have hL : s.bits_left.toNat ≤ 7 := by omega
  have hemod0 : (0 : Int) ≤ -((n : Int) - s.bits_left) % 8 :=
    Int.emod_nonneg _ (by norm_num)
  have hemod7 : -((n : Int) - s.bits_left) % 8 < 8 :=
    Int.emod_lt_of_pos _ (by norm_num)
  have hle7 : -((n : Int) - s.bits_left) % 8 ≤ 7 := by omega
  by_cases h64 : n > 64
  · rw [read_bits_int_le, if_pos h64] at h
    simp at h
  · by_cases hpos : (0 : Int) < (n : Int) - s.bits_left
    · -- bytes are read: go through the characterization
      have hLn : s.bits_left.toNat < n := by omega
      have hn : n ≤ 64 := by omega
      obtain ⟨hge, hrle, hkle⟩ :=
        bytes_for_ge s.bits_left.toNat n hL (by omega)
      have henough : s.pos + bytes_for s.bits_left.toNat n ≤ src.length := by
        by_contra hcon
        rw [read_bits_int_le, if_neg h64] at h
        simp only [] at h
        rw [if_pos hpos, hbl, bytes_needed_for_eq s.bits_left.toNat n hLn,
          read_bytes, if_pos (by omega)] at h
        simp at h
      rw [read_bits_int_le_spec src s n s.bits_left.toNat
        (bytes_for s.bits_left.toNat n)
        (s.bits_left.toNat + 8 * bytes_for s.bits_left.toNat n - n)
        hsrc hn hbl hL hm rfl rfl henough] at h
      have h2 := congrArg Prod.snd h
      simp only [] at h2
      rw [← h2]
      have hlen : ((src.drop s.pos).take (bytes_for s.bits_left.toNat n)).length =
          bytes_for s.bits_left.toNat n :=
        take_drop_length src s.pos _ henough
      have hlv : leVal ((src.drop s.pos).take (bytes_for s.bits_left.toNat n)) <
          2 ^ (8 * bytes_for s.bits_left.toNat n) := by
        have := leVal_lt _ (take_drop_bytes src hsrc s.pos (bytes_for s.bits_left.toNat n))
        rwa [hlen] at this
      have hW : s.bits + 2 ^ s.bits_left.toNat *
          leVal ((src.drop s.pos).take (bytes_for s.bits_left.toNat n)) <
          2 ^ (s.bits_left.toNat + 8 * bytes_for s.bits_left.toNat n) := by
        have hdist : 2 ^ s.bits_left.toNat *
            (leVal ((src.drop s.pos).take (bytes_for s.bits_left.toNat n)) + 1) ≤
            2 ^ s.bits_left.toNat * 2 ^ (8 * bytes_for s.bits_left.toNat n) :=
          Nat.mul_le_mul_left _ (by omega)
        have hdist2 : 2 ^ s.bits_left.toNat *
            (leVal ((src.drop s.pos).take (bytes_for s.bits_left.toNat n)) + 1) =
            2 ^ s.bits_left.toNat *
              leVal ((src.drop s.pos).take (bytes_for s.bits_left.toNat n)) +
              2 ^ s.bits_left.toNat := by ring
        have hpadd : 2 ^ s.bits_left.toNat * 2 ^ (8 * bytes_for s.bits_left.toNat n) =
            2 ^ (s.bits_left.toNat + 8 * bytes_for s.bits_left.toNat n) := by
          rw [← pow_add]
        omega
      have htn : (((s.bits_left.toNat : Int) - (n : Int)) % 8).toNat =
          s.bits_left.toNat + 8 * bytes_for s.bits_left.toNat n - n := by omega
      refine ⟨?_, ?_, ?_⟩
      · show (0 : Int) ≤ ((s.bits_left.toNat : Int) - (n : Int)) % 8
        exact Int.emod_nonneg _ (by norm_num)
      · show ((s.bits_left.toNat : Int) - (n : Int)) % 8 ≤ 7
        have := Int.emod_lt_of_pos ((s.bits_left.toNat : Int) - (n : Int))
          (show (0 : Int) < 8 by norm_num)
        omega
      · show (s.bits + 2 ^ s.bits_left.toNat *
            leVal ((src.drop s.pos).take (bytes_for s.bits_left.toNat n))) / 2 ^ n <
            2 ^ (((s.bits_left.toNat : Int) - (n : Int)) % 8).toNat
        rw [htn, Nat.div_lt_iff_lt_mul (Nat.pos_pow_of_pos n (by norm_num)),
          ← pow_add]
        have hexp : s.bits_left.toNat + 8 * bytes_for s.bits_left.toNat n - n + n =
            s.bits_left.toNat + 8 * bytes_for s.bits_left.toNat n := by omega
        rw [hexp]
        exact hW
    · -- served from the residual: bits shift down, mask shrinks
      rw [read_bits_int_le, if_neg h64] at h
      simp only [] at h
      rw [if_neg hpos] at h
      have h2 := congrArg Prod.snd h
      simp only [] at h2
      rw [← h2]
      have hnL : (n : Int) ≤ s.bits_left := by omega
      have htn2 : (-((n : Int) - s.bits_left) % 8).toNat = s.bits_left.toNat - n := by
        omega
      refine ⟨hemod0, hle7, ?_⟩
      show s.bits >>> n < 2 ^ (-((n : Int) - s.bits_left) % 8).toNat
      rw [htn2, Nat.shiftRight_eq_div_pow,
        Nat.div_lt_iff_lt_mul (Nat.pos_pow_of_pos n (by norm_num)), ← pow_add]
      have hexp2 : s.bits_left.toNat - n + n = s.bits_left.toNat := by omega
      rw [hexp2]
      exact hm

/-- C7: starting from a fresh reader, after every successfully completed
primitive (`seek`, `align_to_byte`, `read_bytes`, `read_bits_int_be`,
`read_bits_int_le`) the state satisfies `bits_left ∈ [0, 63]` with the
residual buffer masked to its significant bits (`bits >>> bits_left = 0`),
and every such operation preserves this invariant. -/
theorem c7_bit_buffer_invariant (src : List Nat) (s : ReaderState)
    (hsrc : ByteSrc src) (h : Reached src s) :
    0 ≤ s.bits_left ∧ s.bits_left ≤ 63 ∧ s.bits >>> s.bits_left.toNat = 0 := by
  have hv : ValidBits s := by
    induction h with
    | fresh => exact valid_bits_fresh
    | seek_ok hr hstep ih => exact valid_seek hstep ih
    | align_ok hr hstep ih => exact valid_align hstep
    | read_bytes_ok hr hstep ih => exact valid_read_bytes hstep ih
    | read_bits_be_ok hr hstep ih => exact valid_read_bits_be hstep
    | read_bits_le_ok hr hstep ih => exact valid_read_bits_le hsrc ih hstep
  obtain ⟨h0, h7, hm⟩ := hv
  refine ⟨h0, by omega, ?_⟩
  rw [Nat.shiftRight_eq_div_pow]
  exact Nat.div_eq_of_lt hm

/-- C7 witness: a state reached by a fresh three-bit big-endian read. -/
theorem c7_bit_buffer_invariant_witness :
    0 ≤ (⟨1, 0, 5⟩ : ReaderState).bits_left ∧
      (⟨1, 0, 5⟩ : ReaderState).bits_left ≤ 63 ∧
      (⟨1, 0, 5⟩ : ReaderState).bits >>> (⟨1, 0, 5⟩ : ReaderState).bits_left.toNat = 0 :=
  c7_bit_buffer_invariant [160] ⟨1, 0, 5⟩ (by decide)
    (Reached.read_bits_be_ok (n := 3) (v := 5) Reached.fresh (by rfl))
